import Mathlib

/-!
Verification of the gin-doi registration service.

Shallow embedding of the Go sources of the gin-doi repository
(`cmd/gindoid/*.go` and the accompanying files): the metadata validator
(`checkMissingValues`, `hasValues`, `ValidDOIFile`), the identifier
derivation (`makeUUID` with its MD5 content hash), the job dispatcher
(`Dispatcher.dispatch` / worker pool), the archival clone (`CloneRepo`),
and the template helpers (`KeywordPath`, `Reference.GetURL`).
Machine integers are modelled as `Nat` with explicit reduction modulo
`2 ^ 32` where the Go code uses `uint32`; Go slices are modelled as
`List`; Go strings as Lean `String` (UTF-8 byte sequences are produced
by an explicit encoder where the code hashes raw bytes).

The file is organised as all definitions first, then all theorems.
-/

namespace GinDoi

/-! ## Message constants (cmd/gindoid/gindoi.go) -/

def msgNoTitle : String := "No title provided."

def msgNoAuthors : String := "No authors provided."

def msgInvalidAuthors : String := "Not all authors valid. Please provide at least a last name and a first name."

def msgNoDescription : String := "No description provided."

def msgNoLicense : String := "No valid license provided. Please specify URL and name."

def msgInvalidReference : String := "A specified Reference is not valid. Please provide the name and type of the reference."

/-! ## Metadata data model (libgin.DOIRegInfo as used by cmd/gindoid/reginfo.go)

Only the fields the validator reads are modelled; a Go `nil` slice and an
empty slice behave identically under `range` and `len`, so slice fields
are plain lists, and the nilable `*License` pointer is an `Option`.
-/

structure Author where
  FirstName : String
  LastName : String
  Affiliation : String
  ID : String
  deriving DecidableEq, Repr

structure License where
  Name : String
  URL : String
  deriving DecidableEq, Repr

structure Reference where
  RefType : String
  Name : String
  Citation : String
  ID : String
  deriving DecidableEq, Repr

structure DOIRegInfo where
  Title : String
  Authors : List Author
  Description : String
  License : Option License
  References : List Reference
  deriving DecidableEq, Repr

/-- The author-loop guard of `checkMissingValues`:
`auth.LastName == "" || auth.FirstName == ""`. -/
def badAuthor (a : Author) : Bool := a.LastName == "" || a.FirstName == ""

/-- The reference-loop guard of `checkMissingValues`:
`(ref.Citation == "" && ref.Name == "") || ref.RefType == ""`. -/
def badReference (r : Reference) : Bool :=
  (r.Citation == "" && r.Name == "") || r.RefType == ""

/-- The license guard of `checkMissingValues`:
`info.License == nil || info.License.Name == "" || info.License.URL == ""`. -/
def badLicense : Option License → Bool
  | none => true
  | some lic => lic.Name == "" || lic.URL == ""

/-- Translation of `checkMissingValues` (cmd/gindoid/reginfo.go): returns
the list of messages for required fields that have no values set.  Each
Go `missing = append(missing, msg)` inside an `if` / `for` is rendered by
rebinding the accumulator; the author and reference loops are `foldl`s
over the slices (ranging over a Go `nil` slice ranges over nothing, so
the `info.References != nil` test adds nothing to the model). -/
def checkMissingValues (info : DOIRegInfo) : List String :=
  let missing : List String := []
  let missing := if info.Title == "" then missing ++ [msgNoTitle] else missing
  let missing :=
    if info.Authors.length == 0 then missing ++ [msgNoAuthors]
    else
      info.Authors.foldl
        (fun m auth => if badAuthor auth then m ++ [msgInvalidAuthors] else m)
        missing
  let missing := if info.Description == "" then missing ++ [msgNoDescription] else missing
  let missing := if badLicense info.License then missing ++ [msgNoLicense] else missing
  let missing :=
    info.References.foldl
      (fun m ref => if badReference ref then m ++ [msgInvalidReference] else m)
      missing
  missing

/-- The deficiency list as the spec words it (§4.1): title first, then
author deficiencies (a single no-authors message when the list is empty,
otherwise one invalid-author message per offending author), then
description, then license, then one invalid-reference message per
offending reference. -/
def deficiencyListSpec (info : DOIRegInfo) : List String :=
  (if info.Title == "" then [msgNoTitle] else []) ++
  (if info.Authors.length == 0 then [msgNoAuthors]
   else (info.Authors.filter badAuthor).map (fun _ => msgInvalidAuthors)) ++
  (if info.Description == "" then [msgNoDescription] else []) ++
  (if badLicense info.License then [msgNoLicense] else []) ++
  (info.References.filter badReference).map (fun _ => msgInvalidReference)

/-! ## Legacy validator (the earlier version of the same service)

The earlier source keeps its own `DOIRegInfo` with a `Missing` field and a
`Reference` without a `Citation` field; `hasValues` takes the record by
pointer and appends the deficiency messages to `s.Missing`, so it is
embedded as state passing: it returns the boolean together with the
updated record.  The `DateTime` field (set by `ValidDOIFile` from the
clock, never read by the validator) is not modelled.
-/

namespace Legacy

structure Reference where
  Reftype : String
  Name : String
  ID : String
  deriving DecidableEq, Repr

structure DOIRegInfo where
  Missing : List String
  Title : String
  Authors : List Author
  Description : String
  License : Option License
  References : List Reference
  deriving DecidableEq, Repr

/-- The reference-loop guard of legacy `hasValues`:
`ref.Name == "" || ref.Reftype == ""`. -/
def badReference (r : Reference) : Bool := r.Name == "" || r.Reftype == ""

/-- Legacy `hasValues`: appends one message per failed check to
`s.Missing` and returns `len(s.Missing) == 0` together with the updated
record. -/
def hasValues (s : DOIRegInfo) : Bool × DOIRegInfo :=
  let s := if s.Title == "" then { s with Missing := s.Missing ++ [msgNoTitle] } else s
  let s :=
    if s.Authors.length == 0 then { s with Missing := s.Missing ++ [msgNoAuthors] }
    else
      s.Authors.foldl
        (fun t auth =>
          if badAuthor auth then { t with Missing := t.Missing ++ [msgInvalidAuthors] } else t)
        s
  let s := if s.Description == "" then { s with Missing := s.Missing ++ [msgNoDescription] } else s
  let s := if badLicense s.License then { s with Missing := s.Missing ++ [msgNoLicense] } else s
  let s :=
    s.References.foldl
      (fun t ref =>
        if badReference ref then { t with Missing := t.Missing ++ [msgInvalidReference] } else t)
      s
  (s.Missing.length == 0, s)

/-- The messages legacy `hasValues` appends, in order. -/
def legacyDeficiencies (s : DOIRegInfo) : List String :=
  (if s.Title == "" then [msgNoTitle] else []) ++
  (if s.Authors.length == 0 then [msgNoAuthors]
   else (s.Authors.filter badAuthor).map (fun _ => msgInvalidAuthors)) ++
  (if s.Description == "" then [msgNoDescription] else []) ++
  (if badLicense s.License then [msgNoLicense] else []) ++
  (s.References.filter badReference).map (fun _ => msgInvalidReference)

end Legacy

/-- The outcome of `getDOIFile` + `yaml.Unmarshal` inside `ValidDOIFile`:
the HTTP fetch may fail, the YAML may fail to parse (with an error
message), or a record is produced.  These are the function's external
inputs; everything after them is the code under analysis. -/
inductive FetchOutcome where
  | fetchFailed
  | badYAML (errmsg : String)
  | parsed (info : Legacy.DOIRegInfo)

/-- Legacy `ValidDOIFile`: on fetch error returns `(false, nil)`; on
parse error returns `false` with a fresh record whose `Missing` holds the
error text; otherwise runs `hasValues` on the parsed record and returns
its verdict with the (mutated) record. -/
def ValidDOIFile (outcome : FetchOutcome) : Bool × Option Legacy.DOIRegInfo :=
  match outcome with
  | .fetchFailed => (false, none)
  | .badYAML errmsg => (false, some ⟨[errmsg], "", [], "", none, []⟩)
  | .parsed doiInfo =>
      let r := Legacy.hasValues doiInfo
      if !r.1 then (false, some r.2) else (true, some r.2)

/-! ## Identifier derivation: `makeUUID` (legacy source, with its in-file
`UUIDMap`; cmd/gindoid/util.go carries the identical function over
`libgin.UUIDMap`)

`crypto/md5` and `encoding/hex` are modelled bit-for-bit: bytes are `Nat`
below 256, 32-bit words are `Nat` reduced modulo `2 ^ 32`, and `[]byte(URI)`
is the UTF-8 encoding of the string.
-/

def w32 : Nat := 4294967296

def add32 (a b : Nat) : Nat := (a + b) % w32

def not32 (x : Nat) : Nat := x ^^^ 4294967295

def rotl32 (x s : Nat) : Nat := ((x <<< s) ||| (x >>> (32 - s))) % w32

/-- The 64 MD5 sine-derived constants (RFC 1321 T table). -/
def mdK : List Nat :=
  [0xd76aa478, 0xe8c7b756, 0x242070db, 0xc1bdceee,
   0xf57c0faf, 0x4787c62a, 0xa8304613, 0xfd469501,
   0x698098d8, 0x8b44f7af, 0xffff5bb1, 0x895cd7be,
   0x6b901122, 0xfd987193, 0xa679438e, 0x49b40821,
   0xf61e2562, 0xc040b340, 0x265e5a51, 0xe9b6c7aa,
   0xd62f105d, 0x02441453, 0xd8a1e681, 0xe7d3fbc8,
   0x21e1cde6, 0xc33707d6, 0xf4d50d87, 0x455a14ed,
   0xa9e3e905, 0xfcefa3f8, 0x676f02d9, 0x8d2a4c8a,
   0xfffa3942, 0x8771f681, 0x6d9d6122, 0xfde5380c,
   0xa4beea44, 0x4bdecfa9, 0xf6bb4b60, 0xbebfbc70,
   0x289b7ec6, 0xeaa127fa, 0xd4ef3085, 0x04881d05,
   0xd9d4d039, 0xe6db99e5, 0x1fa27cf8, 0xc4ac5665,
   0xf4292244, 0x432aff97, 0xab9423a7, 0xfc93a039,
   0x655b59c3, 0x8f0ccc92, 0xffeff47d, 0x85845dd1,
   0x6fa87e4f, 0xfe2ce6e0, 0xa3014314, 0x4e0811a1,
   0xf7537e82, 0xbd3af235, 0x2ad7d2bb, 0xeb86d391]

/-- The 64 MD5 per-round left-rotation amounts. -/
def mdS : List Nat :=
  [7, 12, 17, 22, 7, 12, 17, 22, 7, 12, 17, 22, 7, 12, 17, 22,
   5, 9, 14, 20, 5, 9, 14, 20, 5, 9, 14, 20, 5, 9, 14, 20,
   4, 11, 16, 23, 4, 11, 16, 23, 4, 11, 16, 23, 4, 11, 16, 23,
   6, 10, 15, 21, 6, 10, 15, 21, 6, 10, 15, 21, 6, 10, 15, 21]

/-- Little-endian 32-bit word from the first four bytes of a list. -/
def le4 (l : List Nat) : Nat :=
  l.getD 0 0 + 256 * l.getD 1 0 + 65536 * l.getD 2 0 + 16777216 * l.getD 3 0

def blockWord (block : List Nat) (j : Nat) : Nat := le4 (block.drop (4 * j))

/-- One of the 64 MD5 rounds on state `(a, b, c, d)`. -/
def md5Round (block : List Nat) (st : Nat × Nat × Nat × Nat) (i : Nat) :
    Nat × Nat × Nat × Nat :=
  let a := st.1
  let b := st.2.1
  let c := st.2.2.1
  let d := st.2.2.2
  let f :=
    if i < 16 then (b &&& c) ||| (not32 b &&& d)
    else if i < 32 then (d &&& b) ||| (not32 d &&& c)
    else if i < 48 then b ^^^ c ^^^ d
    else c ^^^ (b ||| not32 d)
  let g :=
    if i < 16 then i
    else if i < 32 then (5 * i + 1) % 16
    else if i < 48 then (3 * i + 5) % 16
    else (7 * i) % 16
  let tmp := add32 (add32 (add32 a f) (mdK.getD i 0)) (blockWord block g)
  (d, add32 b (rotl32 tmp (mdS.getD i 0)), b, c)

/-- Process one 64-byte block: 64 rounds, then add into the running state. -/
def md5Block (st : Nat × Nat × Nat × Nat) (block : List Nat) :
    Nat × Nat × Nat × Nat :=
  let r := (List.range 64).foldl (md5Round block) st
  (add32 st.1 r.1, add32 st.2.1 r.2.1, add32 st.2.2.1 r.2.2.1, add32 st.2.2.2 r.2.2.2)

/-- Little-endian 8-byte rendering of the 64-bit message bit length. -/
def le8 (n : Nat) : List Nat := (List.range 8).map (fun i => (n >>> (8 * i)) % 256)

/-- MD5 padding: a 0x80 byte, zeros to 56 mod 64, then the bit length. -/
def md5Pad (msg : List Nat) : List Nat :=
  let padZeros := (120 - ((msg.length + 1) % 64)) % 64
  msg ++ [128] ++ List.replicate padZeros 0 ++ le8 ((8 * msg.length) % (2 ^ 64))

/-- Split into 64-byte blocks; the fuel (any bound on the block count,
here the byte count) makes the recursion structural so terms reduce. -/
def chunksGo (fuel : Nat) (l : List Nat) : List (List Nat) :=
  match fuel with
  | 0 => []
  | fuel + 1 => if l = [] then [] else l.take 64 :: chunksGo fuel (l.drop 64)

def chunks64 (l : List Nat) : List (List Nat) := chunksGo l.length l

/-- Little-endian byte rendering of one 32-bit state word. -/
def word2le (x : Nat) : List Nat :=
  [x % 256, (x >>> 8) % 256, (x >>> 16) % 256, (x >>> 24) % 256]

/-- Model of `md5.Sum`: the 16-byte MD5 digest of a byte sequence. -/
def md5 (msg : List Nat) : List Nat :=
  let fin := (chunks64 (md5Pad msg)).foldl md5Block
    (0x67452301, 0xefcdab89, 0x98badcfe, 0x10325476)
  word2le fin.1 ++ word2le fin.2.1 ++ word2le fin.2.2.1 ++ word2le fin.2.2.2

/-- The `encoding/hex` digit table, the characters of the Go constant
`hextable`. -/
def hexDigits : List Char := "0123456789abcdef".data

/-- Model of `hex.EncodeToString` on one byte: high then low nibble. -/
def hexByte (b : Nat) : List Char := [hexDigits.getD (b / 16) '0', hexDigits.getD (b % 16) '0']

def hexEncodeToString (bytes : List Nat) : String := String.mk ((bytes.map hexByte).flatten)

/-- UTF-8 encoding of one character (Go `[]byte(s)` views the string's
UTF-8 bytes). -/
def utf8Bytes (c : Char) : List Nat :=
  let n := c.toNat
  if n < 128 then [n]
  else if n < 2048 then [192 ||| (n >>> 6), 128 ||| (n &&& 63)]
  else if n < 65536 then
    [224 ||| (n >>> 12), 128 ||| ((n >>> 6) &&& 63), 128 ||| (n &&& 63)]
  else
    [240 ||| (n >>> 18), 128 ||| ((n >>> 12) &&& 63), 128 ||| ((n >>> 6) &&& 63),
     128 ||| (n &&& 63)]

def strBytes (s : String) : List Nat := (s.data.map utf8Bytes).flatten

/-- The fixed legacy override table `UUIDMap` (legacy source). -/
def UUIDMap : List (String × String) :=
  [("INT/multielectrode_grasp", "f83565d148510fede8a277f660e1a419"),
   ("ajkumaraswamy/HB-PAC_disinhibitory_network", "1090f803258557299d287c4d44a541b2"),
   ("steffi/Kleineidam_et_al_2017", "f53069de4c4921a3cfa8f17d55ef98bb"),
   ("Churan/Morris_et_al_Frontiers_2016", "97bc1456d3f4bca2d945357b3ec92029"),
   ("fabee/efish_locking", "6953bbf0087ba444b2d549b759de4a06")]

/-- Translation of `makeUUID`: legacy-table lookup, otherwise lowercase
hex MD5 of the URI's bytes. -/
def makeUUID (URI : String) : String :=
  match UUIDMap.lookup URI with
  | some doi => doi
  | none => hexEncodeToString (md5 (strBytes URI))

/-! ## `KeywordPath` (cmd/gindoid/util.go) -/

/-- Model of `strings.ToLower` on one character: the Unicode simple case
mapping restricted to ASCII (the claims proved below concern `/`, `_` and
ASCII letters only, and no Unicode code point lowercases to an ASCII
uppercase letter, so the ASCII table is a faithful restriction). -/
def goLowerChar (c : Char) : Char :=
  if 65 ≤ c.toNat ∧ c.toNat ≤ 90 then Char.ofNat (c.toNat + 32) else c

def goToLower (s : String) : String := String.mk (s.data.map goLowerChar)

/-- Model of `strings.ReplaceAll(kw, "/", "_")` on one character (the
pattern is a single character, so the replacement is a per-character
map). -/
def replaceSlashChar (c : Char) : Char := if c = '/' then '_' else c

def goReplaceSlashUnderscore (s : String) : String :=
  String.mk (s.data.map replaceSlashChar)

/-- Translation of `KeywordPath`: lowercase the keyword, then replace `/`
with `_`. -/
def KeywordPath (kw : String) : String := goReplaceSlashUnderscore (goToLower kw)

/-! ## `CloneRepo` (legacy source)

`CloneRepo` saves the working directory with `os.Getwd`, registers
`defer os.Chdir(origdir)`, changes into the destination directory and
drains the clone and annex-get channels.  The embedding threads the
process working directory explicitly and takes the outcomes of the
external calls (`os.Getwd`, `os.Chdir(destdir)`, the clone channel, the
annex-get channel) as inputs; the deferred `os.Chdir(origdir)` targets
the directory `os.Getwd` returned, which is taken to still exist. -/

structure CloneEnv where
  getwdFails : Bool
  chdirDestFails : Bool
  cloneErr : Option String
  getContentErr : Option String
  deriving DecidableEq, Repr

/-- Model of `os.Chdir` to an existing directory: the working directory
becomes the argument. -/
def osChdir (dir : String) : String := dir

/-- What `CloneRepo` returns and leaves behind: the error result, the
working directory after the call, and the directory the
`Session.CloneRepo` call ran in (if it was reached). -/
structure CloneResult where
  err : Option String
  cwdAfter : String
  cloneRanIn : Option String
  deriving DecidableEq, Repr

def CloneRepo (URI destdir : String) (env : CloneEnv) (cwd : String) : CloneResult :=
  if env.getwdFails then
    { err := some "getwd failed", cwdAfter := cwd, cloneRanIn := none }
  else
    let origdir := cwd
    if env.chdirDestFails then
      { err := some "chdir failed", cwdAfter := osChdir origdir, cloneRanIn := none }
    else
      let cwd := osChdir destdir
      match env.cloneErr with
      | some e => { err := some e, cwdAfter := osChdir origdir, cloneRanIn := some cwd }
      | none =>
          match env.getContentErr with
          | some e => { err := some e, cwdAfter := osChdir origdir, cloneRanIn := some cwd }
          | none => { err := none, cwdAfter := osChdir origdir, cloneRanIn := some cwd }

/-! ## `Reference.GetURL` (legacy source)

`GetURL` splits `ref.ID` with `strings.SplitN(ref.ID, ":", 2)` and then
reads `idparts[0]` and `idparts[1]`.  When the ID has no colon, `SplitN`
returns a one-element slice and the `idparts[1]` access panics at run
time; the embedding returns `Option`, with `none` for that panic. -/

/-- Split at the first occurrence of `sep`, if any. -/
def splitFirst (sep : Char) : List Char → Option (List Char × List Char)
  | [] => none
  | c :: cs =>
      if c = sep then some ([], cs)
      else
        match splitFirst sep cs with
        | some (l, r) => some (c :: l, r)
        | none => none

/-- Model of `strings.SplitN(s, sep, 2)` for a single-character
separator: two parts around the first occurrence, or the whole string. -/
def goSplitN2 (s : String) (sep : Char) : List String :=
  match splitFirst sep s.data with
  | some (l, r) => [String.mk l, String.mk r]
  | none => [s]

/-- The `switch strings.ToLower(source)` body of `GetURL`: the URL for a
known source joined with the ID segment, the empty string otherwise. -/
def refSourceURL (source idnum : String) : String :=
  if goToLower source = "doi" then "https://doi.org/" ++ idnum
  else if goToLower source = "arxiv" then "https://arxiv.org/abs/" ++ idnum
  else if goToLower source = "pmid" then "https://www.ncbi.nlm.nih.gov/pubmed/" ++ idnum
  else ""

/-- Translation of `Reference.GetURL`: `none` models the out-of-bounds
`idparts[1]` access (a run-time panic) when the ID contains no colon. -/
def GetURL (ref : Legacy.Reference) : Option String :=
  let idparts := goSplitN2 ref.ID ':'
  match idparts.get? 0, idparts.get? 1 with
  | some source, some idnum => some (refSourceURL source idnum)
  | _, _ => none

/-! ## Dispatcher / worker pool (the Disp source file)

`Dispatcher.dispatch` loops: it receives a job from the shared `jobQueue`
channel (FIFO) and spawns a goroutine (`go func()`) that blocks on
`<-d.workerPool` for an idle worker's job channel and sends the job to
it.  Idle workers re-insert their channel into the pool after finishing a
job.  The embedding is a small-step interleaving semantics over
snapshots of this system:

* `jobQueue`  — jobs still in the intake channel, in enqueue order;
* `pending`   — jobs held by spawned handoff goroutines that have not yet
  obtained a worker channel;
* `idle`      — worker channels currently sitting in `workerPool`;
* `assigned`  — jobs in the order they were handed to workers.

Steps: `recv` is one iteration of the dispatch loop (dequeue head, spawn
the handoff goroutine); `handoff` is one spawned goroutine obtaining an
idle worker and sending it its job — any pending goroutine may win the
race; `finish` is a worker completing a job and re-adding its channel to
the pool. -/

structure DispState where
  jobQueue : List Nat
  pending : List Nat
  idle : Nat
  assigned : List Nat
  deriving DecidableEq, Repr

inductive DispStep : DispState → DispState → Prop
  | recv (j : Nat) (q p : List Nat) (w : Nat) (a : List Nat) :
      DispStep ⟨j :: q, p, w, a⟩ ⟨q, p ++ [j], w, a⟩
  | handoff (q p₁ p₂ : List Nat) (j : Nat) (w : Nat) (a : List Nat) :
      DispStep ⟨q, p₁ ++ j :: p₂, w + 1, a⟩ ⟨q, p₁ ++ p₂, w, a ++ [j]⟩
  | finish (q p : List Nat) (w : Nat) (a : List Nat) :
      DispStep ⟨q, p, w, a⟩ ⟨q, p, w + 1, a⟩

/-! ## Theorems: validator list structure -/

theorem foldl_append_guard {α : Type} (p : α → Bool) (msg : String) :
    ∀ (l : List α) (acc : List String),
      l.foldl (fun m x => if p x then m ++ [msg] else m) acc
        = acc ++ (l.filter p).map (fun _ => msg)
  | [], acc => by simp
  | x :: xs, acc => by
      by_cases h : p x
      · simp only [List.foldl_cons, h, if_pos, List.filter_cons_of_pos, List.map_cons]
        rw [foldl_append_guard p msg xs (acc ++ [msg])]
        simp
      · simp only [List.foldl_cons, h, Bool.false_eq_true, if_neg, not_false_iff,
          List.filter_cons_of_neg]
        rw [foldl_append_guard p msg xs acc]

theorem checkMissingValues_segments (info : DOIRegInfo) :
    checkMissingValues info = deficiencyListSpec info := by
  simp only [checkMissingValues, deficiencyListSpec]
  rw [foldl_append_guard badReference msgInvalidReference]
  by_cases hl : info.Authors.length == 0
  · simp only [hl, if_pos]
    split_ifs <;> simp
  · simp only [hl, Bool.false_eq_true, if_neg, not_false_iff]
    rw [foldl_append_guard badAuthor msgInvalidAuthors]
    split_ifs <;> simp

theorem count_map_const {α : Type} (l : List α) (m m' : String) :
    (l.map (fun _ => m)).count m' = if m = m' then l.length else 0 := by
  induction l with
  | nil => simp
  | cons x xs ih =>
      simp only [List.map_cons, List.count_cons, ih]
      split_ifs <;> simp_all

/-- Claim C6: the validator performs all checks without short-circuiting and
in a fixed order — the returned deficiency list is exactly the title
segment, then the author segment (a single no-authors message for an empty
author list, otherwise one invalid-author message per offending author),
then description, then license, then one invalid-reference message per
offending reference, concatenated in that order. -/
theorem checkMissingValues_ordered_segments (info : DOIRegInfo) :
    checkMissingValues info =
      (if info.Title == "" then [msgNoTitle] else []) ++
      (if info.Authors.length == 0 then [msgNoAuthors]
       else (info.Authors.filter badAuthor).map (fun _ => msgInvalidAuthors)) ++
      (if info.Description == "" then [msgNoDescription] else []) ++
      (if badLicense info.License then [msgNoLicense] else []) ++
      (info.References.filter badReference).map (fun _ => msgInvalidReference) :=
  checkMissingValues_segments info

/-- Claim C3: a record with empty title, no authors and no license, but a
non-empty description and only well-formed references, yields exactly the
three messages for title, authors and license; a record with a non-empty
title, at least one author all of whom have non-empty first and last
names, a non-empty description, a license with both name and URL, and
only well-formed references, yields the empty list. -/
theorem checkMissingValues_completeness (info : DOIRegInfo) :
    (info.Title = "" → info.Authors = [] → info.License = none →
      info.Description ≠ "" →
      (∀ r ∈ info.References, (r.Citation ≠ "" ∨ r.Name ≠ "") ∧ r.RefType ≠ "") →
      checkMissingValues info = [msgNoTitle, msgNoAuthors, msgNoLicense]) ∧
    (info.Title ≠ "" → info.Authors ≠ [] →
      (∀ a ∈ info.Authors, a.FirstName ≠ "" ∧ a.LastName ≠ "") →
      info.Description ≠ "" →
      (∀ lic, info.License = some lic → lic.Name ≠ "" ∧ lic.URL ≠ "") →
      info.License ≠ none →
      (∀ r ∈ info.References, (r.Citation ≠ "" ∨ r.Name ≠ "") ∧ r.RefType ≠ "") →
      checkMissingValues info = []) := by
  constructor
  · intro ht ha hlic hd hr
    rw [checkMissingValues_segments]
    have hfil : info.References.filter badReference = [] := by
      rw [List.filter_eq_nil_iff]
      intro r hrmem
      have := hr r hrmem
      simp only [badReference, Bool.or_eq_true, Bool.and_eq_true, beq_iff_eq]
      tauto
    simp [deficiencyListSpec, ht, ha, hlic, hd, hfil, badLicense]
  · intro ht ha hauth hd hlic hlicne hr
    rw [checkMissingValues_segments]
    have hfila : info.Authors.filter badAuthor = [] := by
      rw [List.filter_eq_nil_iff]
      intro a hamem
      have := hauth a hamem
      simp only [badAuthor, Bool.or_eq_true, beq_iff_eq]
      tauto
    have hfilr : info.References.filter badReference = [] := by
      rw [List.filter_eq_nil_iff]
      intro r hrmem
      have := hr r hrmem
      simp only [badReference, Bool.or_eq_true, Bool.and_eq_true, beq_iff_eq]
      tauto
    have hlen : (info.Authors.length == 0) = false := by
      simp [List.length_eq_zero, ha]
    have hbadl : badLicense info.License = false := by
      cases hLic : info.License with
      | none => exact absurd hLic hlicne
      | some lic =>
          have := hlic lic hLic
          simp only [badLicense, Bool.or_eq_false_iff, beq_eq_false_iff_ne]
          tauto
    simp [deficiencyListSpec, ht, hd, hlen, hbadl, hfila, hfilr]

theorem checkMissingValues_completeness_witness :
    checkMissingValues ⟨"", [], "some description", none, [⟨"journalarticle", "", "A citation", "doi:10.1"⟩]⟩
        = [msgNoTitle, msgNoAuthors, msgNoLicense] ∧
    checkMissingValues ⟨"A title", [⟨"Ada", "Lovelace", "", ""⟩], "some description",
        some ⟨"CC-BY", "https://creativecommons.org/licenses/by/4.0/"⟩, []⟩ = [] := by
  constructor
  · exact (checkMissingValues_completeness _).1 rfl rfl rfl (by decide) (by decide)
  · exact (checkMissingValues_completeness _).2 (by decide) (by decide) (by decide)
      (by decide) (by decide) (by decide) (by decide)

/-- Claim C4: `checkMissingValues` reports one invalid-reference message per
reference that has neither citation nor name, or has no type, and no
message for any other reference; in particular a reference with a
citation and a type but an empty name is not flagged. -/
theorem checkMissingValues_reference_rule (info : DOIRegInfo) :
    (checkMissingValues info).count msgInvalidReference
        = (info.References.filter badReference).length ∧
    (∀ r : Reference,
        badReference r = true ↔ ((r.Citation = "" ∧ r.Name = "") ∨ r.RefType = "")) ∧
    (∀ r : Reference, r.Citation ≠ "" → r.RefType ≠ "" → badReference r = false) := by
  refine ⟨?_, ?_, ?_⟩
  · rw [checkMissingValues_segments]
    simp only [deficiencyListSpec, List.count_append]
    have h1 : ∀ c : Bool, (if c then [msgNoTitle] else []).count msgInvalidReference = 0 := by
      intro c; cases c <;> simp [List.count_cons, msgNoTitle, msgInvalidReference]
    have h2 : (if info.Authors.length == 0 then [msgNoAuthors]
        else (info.Authors.filter badAuthor).map
          (fun _ => msgInvalidAuthors)).count msgInvalidReference = 0 := by
      split_ifs
      · simp [List.count_cons, msgNoAuthors, msgInvalidReference]
      · rw [count_map_const]
        simp [msgInvalidAuthors, msgInvalidReference]
    have h3 : ∀ c : Bool, (if c then [msgNoDescription] else []).count msgInvalidReference = 0 := by
      intro c; cases c <;> simp [List.count_cons, msgNoDescription, msgInvalidReference]
    have h4 : ∀ c : Bool, (if c then [msgNoLicense] else []).count msgInvalidReference = 0 := by
      intro c; cases c <;> simp [List.count_cons, msgNoLicense, msgInvalidReference]
    rw [h1, h2, h3, h4, count_map_const]
    simp
  · intro r
    simp only [badReference, Bool.or_eq_true, Bool.and_eq_true, beq_iff_eq]
  · intro r hc ht
    simp only [badReference, Bool.or_eq_false_iff, Bool.and_eq_false_iff, beq_eq_false_iff_ne]
    tauto

theorem checkMissingValues_reference_rule_witness :
    (checkMissingValues ⟨"T", [⟨"A", "B", "", ""⟩], "D", some ⟨"L", "U"⟩,
        [⟨"journalarticle", "", "A citation", "doi:10.1"⟩, ⟨"", "", "", ""⟩]⟩).count
        msgInvalidReference = 1 ∧
    badReference ⟨"journalarticle", "", "A citation", "doi:10.1"⟩ = false := by
  constructor
  · rw [(checkMissingValues_reference_rule _).1]
    decide
  · exact (checkMissingValues_reference_rule
      ⟨"", [], "", none, []⟩).2.2 ⟨"journalarticle", "", "A citation", "doi:10.1"⟩
      (by decide) (by decide)

/-! ## Theorems: legacy validator and `ValidDOIFile` -/

namespace Legacy

theorem foldl_missing_guard {α : Type} (p : α → Bool) (msg : String) :
    ∀ (l : List α) (t : DOIRegInfo),
      l.foldl (fun t x => if p x then { t with Missing := t.Missing ++ [msg] } else t) t
        = { t with Missing := t.Missing ++ (l.filter p).map (fun _ => msg) }
  | [], t => by simp
  | x :: xs, t => by
      by_cases h : p x
      · simp only [List.foldl_cons, h, if_pos, List.filter_cons_of_pos, List.map_cons]
        rw [foldl_missing_guard p msg xs _]
        simp
      · simp only [List.foldl_cons, h, Bool.false_eq_true, if_neg, not_false_iff,
          List.filter_cons_of_neg]
        rw [foldl_missing_guard p msg xs t]

theorem hasValues_eq (s : DOIRegInfo) :
    hasValues s = (((s.Missing ++ legacyDeficiencies s).length == 0),
      { s with Missing := s.Missing ++ legacyDeficiencies s }) := by
  simp only [hasValues, legacyDeficiencies]
  rw [foldl_missing_guard badReference msgInvalidReference]
  by_cases hl : s.Authors.length == 0
  · simp only [hl, if_pos]
    split_ifs <;> simp_all
  · simp only [hl, Bool.false_eq_true, if_neg, not_false_iff]
    rw [foldl_missing_guard badAuthor msgInvalidAuthors]
    split_ifs <;> simp_all

end Legacy

theorem validDOIFile_parsed_eq (info : Legacy.DOIRegInfo) :
    ValidDOIFile (FetchOutcome.parsed info)
      = (((info.Missing ++ Legacy.legacyDeficiencies info).length == 0),
         some { info with Missing := info.Missing ++ Legacy.legacyDeficiencies info }) := by
  show (let r := Legacy.hasValues info;
        if !r.1 then (false, some r.2) else (true, some r.2)) = _
  rw [Legacy.hasValues_eq]
  cases hv : ((info.Missing ++ Legacy.legacyDeficiencies info).length == 0) <;> rfl

/-- Claim C7: `ValidDOIFile` returns `true` only for a fetched, parsed
record in which title, at least one well-formed author, description and a
license with name and URL are all present, and then the returned record's
`Missing` list is empty; whenever it returns `false` together with a
record, that record's `Missing` list is non-empty. -/
theorem validDOIFile_publishable (outcome : FetchOutcome) :
    ((ValidDOIFile outcome).1 = true →
      ∃ info, outcome = FetchOutcome.parsed info ∧
        (ValidDOIFile outcome).2 = some (Legacy.hasValues info).2 ∧
        ((Legacy.hasValues info).2).Missing = [] ∧
        info.Title ≠ "" ∧ info.Authors ≠ [] ∧
        (∀ a ∈ info.Authors, a.LastName ≠ "" ∧ a.FirstName ≠ "") ∧
        info.Description ≠ "" ∧
        (∃ lic, info.License = some lic ∧ lic.Name ≠ "" ∧ lic.URL ≠ "")) ∧
    (∀ rec, (ValidDOIFile outcome).1 = false → (ValidDOIFile outcome).2 = some rec →
      rec.Missing ≠ []) := by
  cases outcome with
  | fetchFailed => exact ⟨fun h => by simp [ValidDOIFile] at h, fun rec h1 h2 => by
      simp [ValidDOIFile] at h2⟩
  | badYAML errmsg =>
      refine ⟨fun h => by simp [ValidDOIFile] at h, fun rec h1 h2 => ?_⟩
      simp only [ValidDOIFile, Option.some.injEq] at h2
      subst h2
      simp
  | parsed info =>
      rw [validDOIFile_parsed_eq]
      by_cases hv : (info.Missing ++ Legacy.legacyDeficiencies info).length == 0
      · have hnil : info.Missing ++ Legacy.legacyDeficiencies info = [] := by
          simpa [List.length_eq_zero] using hv
        have hdef : Legacy.legacyDeficiencies info = [] := by
          rcases List.append_eq_nil.mp hnil with ⟨_, h2⟩
          exact h2
        have hdef' := hdef
        simp only [Legacy.legacyDeficiencies, List.append_eq_nil] at hdef'
        obtain ⟨⟨⟨⟨hts, has⟩, hds⟩, hls⟩, hrs⟩ := hdef'
        have htitle : info.Title ≠ "" := by
          intro h; simp [h] at hts
        have hlen : (info.Authors.length == 0) = false := by
          by_contra hc
          simp only [Bool.not_eq_false] at hc
          simp [hc] at has
        have hauthors : info.Authors ≠ [] := by
          intro h
          simp [h] at hlen
        have hfila : info.Authors.filter badAuthor = [] := by
          simp only [hlen, Bool.false_eq_true, if_neg, not_false_iff] at has
          simpa using has
        have hdesc : info.Description ≠ "" := by
          intro h; simp [h] at hds
        have hlic : badLicense info.License = false := by
          by_contra hc
          simp only [Bool.not_eq_false] at hc
          simp [hc] at hls
        constructor
        · intro _
          refine ⟨info, rfl, ?_, ?_, htitle, hauthors, ?_, hdesc, ?_⟩
          · rw [Legacy.hasValues_eq]
          · rw [Legacy.hasValues_eq]
            simpa using hnil
          · intro a hamem
            have hba : badAuthor a = false := by
              have := List.filter_eq_nil_iff.mp hfila a hamem
              simpa using this
            simp only [badAuthor, Bool.or_eq_false_iff, beq_eq_false_iff_ne] at hba
            tauto
          · cases hL : info.License with
            | none => rw [hL] at hlic; simp [badLicense] at hlic
            | some lic =>
                rw [hL] at hlic
                simp only [badLicense, Bool.or_eq_false_iff, beq_eq_false_iff_ne] at hlic
                exact ⟨lic, rfl, hlic.1, hlic.2⟩
        · intro rec h1 h2
          rw [hv] at h1
          simp at h1
      · refine ⟨fun h => ?_, fun rec h1 h2 => ?_⟩
        · exfalso
          simp only [beq_eq_false_iff_ne] at hv
          simp only [show ((info.Missing ++ Legacy.legacyDeficiencies info).length == 0)
              = false from by simpa using hv] at h
          simp at h
        · simp only [Option.some.injEq] at h2
          subst h2
          intro hM
          have hM' : info.Missing ++ Legacy.legacyDeficiencies info = [] := hM
          rw [hM'] at hv
          simp at hv

theorem validDOIFile_publishable_witness :
    (ValidDOIFile (FetchOutcome.parsed ⟨[], "A title", [⟨"Ada", "Lovelace", "", ""⟩],
        "some description", some ⟨"CC-BY", "https://creativecommons.org/licenses/by/4.0/"⟩,
        []⟩)).1 = true ∧
    (⟨[], "A title", [⟨"Ada", "Lovelace", "", ""⟩], "some description",
        some ⟨"CC-BY", "https://creativecommons.org/licenses/by/4.0/"⟩,
        []⟩ : Legacy.DOIRegInfo).Title ≠ "" ∧
    (ValidDOIFile (FetchOutcome.badYAML "yaml: line 3")).2 = some ⟨["yaml: line 3"], "", [],
        "", none, []⟩ ∧
    (["yaml: line 3"] : List String) ≠ [] := by
  refine ⟨by decide, ?_, by decide, by decide⟩
  obtain ⟨info2, heq, -, -, ht, -⟩ :=
    (validDOIFile_publishable (FetchOutcome.parsed ⟨[], "A title",
      [⟨"Ada", "Lovelace", "", ""⟩], "some description",
      some ⟨"CC-BY", "https://creativecommons.org/licenses/by/4.0/"⟩, []⟩)).1 (by decide)
  injection heq with h
  subst h
  exact ht

/-- Claim C5 counterexample: running the legacy validator on a record with
an empty title does not leave the record unchanged — the stored
missing-field message list changes from empty to the no-title message. -/
theorem hasValues_mutates_record :
    (Legacy.hasValues ⟨[], "", [⟨"Ada", "Lovelace", "", ""⟩], "some description",
        some ⟨"CC-BY", "https://creativecommons.org/licenses/by/4.0/"⟩, []⟩).2
      ≠ ⟨[], "", [⟨"Ada", "Lovelace", "", ""⟩], "some description",
        some ⟨"CC-BY", "https://creativecommons.org/licenses/by/4.0/"⟩, []⟩ := by
  decide

/-- Claim C5 (amended): `checkMissingValues` is a pure function of the
record and always returns a (possibly empty) list, while the legacy
`hasValues` appends the deficiency messages to the record's `Missing`
field; every other field of the record is left unchanged on every input,
and neither validator has an error path. -/
theorem validator_frame (s : Legacy.DOIRegInfo) (info : DOIRegInfo) :
    ((Legacy.hasValues s).2.Title = s.Title ∧
     (Legacy.hasValues s).2.Authors = s.Authors ∧
     (Legacy.hasValues s).2.Description = s.Description ∧
     (Legacy.hasValues s).2.License = s.License ∧
     (Legacy.hasValues s).2.References = s.References) ∧
    (Legacy.hasValues s).2.Missing = s.Missing ++ Legacy.legacyDeficiencies s ∧
    (Legacy.hasValues s).1 = (((Legacy.hasValues s).2).Missing.length == 0) ∧
    checkMissingValues info = deficiencyListSpec info := by
  rw [Legacy.hasValues_eq]
  exact ⟨⟨rfl, rfl, rfl, rfl, rfl⟩, rfl, rfl, checkMissingValues_segments info⟩

/-! ## Theorems: identifier derivation -/

theorem md5_length (msg : List Nat) : (md5 msg).length = 16 := by
  simp [md5, word2le]

theorem hexEncodeToString_length (bytes : List Nat) :
    (hexEncodeToString bytes).length = 2 * bytes.length := by
  show ((bytes.map hexByte).flatten).length = 2 * bytes.length
  induction bytes with
  | nil => simp
  | cons b bs ih =>
      show (hexByte b ++ (bs.map hexByte).flatten).length = 2 * (b :: bs).length
      rw [List.length_append, ih]
      simp only [hexByte, List.length_cons, List.length_nil]
      omega

theorem hexDigits_getD_mem (i : Nat) : hexDigits.getD i '0' ∈ hexDigits := by
  by_cases h : i < 16
  · interval_cases i <;> decide
  · rw [List.getD_eq_default]
    · decide
    · have hlen : hexDigits.length = 16 := by decide
      omega

theorem hexEncodeToString_mem (bytes : List Nat) :
    ∀ c ∈ (hexEncodeToString bytes).data, c ∈ hexDigits := by
  intro c hc
  have hc' : c ∈ (bytes.map hexByte).flatten := hc
  rw [List.mem_flatten] at hc'
  obtain ⟨l, hl, hcl⟩ := hc'
  rw [List.mem_map] at hl
  obtain ⟨b, -, rfl⟩ := hl
  simp only [hexByte, List.mem_cons, List.not_mem_nil, or_false] at hcl
  rcases hcl with rfl | rfl
  · exact hexDigits_getD_mem _
  · exact hexDigits_getD_mem _

/-- Claim C1: `makeUUID` is deterministic and total — an exact key of the
legacy `UUIDMap` yields the mapped identifier unchanged, and any other
string (the empty string included) yields the 32-character lowercase
hexadecimal rendering of the 128-bit MD5 hash of its UTF-8 bytes. -/
theorem makeUUID_deterministic_total (u : String) :
    (∀ d, UUIDMap.lookup u = some d → makeUUID u = d) ∧
    (UUIDMap.lookup u = none →
      makeUUID u = hexEncodeToString (md5 (strBytes u)) ∧
      (makeUUID u).length = 32 ∧
      ∀ c ∈ (makeUUID u).data, c ∈ hexDigits) ∧
    makeUUID u = makeUUID u := by
  refine ⟨fun d hd => ?_, fun hn => ?_, rfl⟩
  · simp [makeUUID, hd]
  · have he : makeUUID u = hexEncodeToString (md5 (strBytes u)) := by
      simp [makeUUID, hn]
    refine ⟨he, ?_, ?_⟩
    · rw [he, hexEncodeToString_length, md5_length]
    · rw [he]
      exact hexEncodeToString_mem _

set_option maxRecDepth 100000 in
theorem makeUUID_deterministic_total_witness :
    UUIDMap.lookup "" = none ∧
    (makeUUID "").length = 32 ∧
    makeUUID "" = "d41d8cd98f00b204e9800998ecf8427e" ∧
    makeUUID "INT/multielectrode_grasp" = "f83565d148510fede8a277f660e1a419" := by
  refine ⟨by decide, ((makeUUID_deterministic_total "").2.1 (by decide)).2.1,
    by decide, (makeUUID_deterministic_total "INT/multielectrode_grasp").1 _ (by decide)⟩

/-! ## Theorems: `KeywordPath` -/

theorem char_toNat_ofNat (n : Nat) (h : n.isValidChar) : (Char.ofNat n).toNat = n := by
  unfold Char.ofNat
  rw [dif_pos h]
  rfl

theorem goLowerChar_not_upper (c : Char) :
    ¬(65 ≤ (goLowerChar c).toNat ∧ (goLowerChar c).toNat ≤ 90) := by
  unfold goLowerChar
  split_ifs with h
  · have hv : (c.toNat + 32).isValidChar := by
      left
      omega
    rw [char_toNat_ofNat _ hv]
    omega
  · exact h

theorem goLowerChar_fixed_of_not_upper (c : Char)
    (h : ¬(65 ≤ c.toNat ∧ c.toNat ≤ 90)) : goLowerChar c = c := by
  unfold goLowerChar
  rw [if_neg h]

theorem replaceSlashChar_ne_slash (c : Char) : replaceSlashChar c ≠ '/' := by
  unfold replaceSlashChar
  split_ifs with h
  · decide
  · exact h

theorem replaceSlashChar_not_upper (c : Char)
    (h : ¬(65 ≤ c.toNat ∧ c.toNat ≤ 90)) :
    ¬(65 ≤ (replaceSlashChar c).toNat ∧ (replaceSlashChar c).toNat ≤ 90) := by
  unfold replaceSlashChar
  split_ifs with hc
  · decide
  · exact h

theorem replaceSlashChar_fixed_of_ne_slash (c : Char) (h : c ≠ '/') :
    replaceSlashChar c = c := by
  unfold replaceSlashChar
  rw [if_neg h]

/-- Claim C9: `KeywordPath` is idempotent, and its output contains no `/`
and no uppercase ASCII letter. -/
theorem keywordPath_idempotent_sanitising (kw : String) :
    KeywordPath (KeywordPath kw) = KeywordPath kw ∧
    (∀ c ∈ (KeywordPath kw).data, c ≠ '/') ∧
    (∀ c ∈ (KeywordPath kw).data, ¬(65 ≤ c.toNat ∧ c.toNat ≤ 90)) := by
  have hdata : (KeywordPath kw).data = kw.data.map (fun c => replaceSlashChar (goLowerChar c)) := by
    show (((kw.data.map goLowerChar)).map replaceSlashChar) = _
    rw [List.map_map]
    rfl
  have hmem : ∀ c ∈ (KeywordPath kw).data,
      c ≠ '/' ∧ ¬(65 ≤ c.toNat ∧ c.toNat ≤ 90) := by
    intro c hc
    rw [hdata, List.mem_map] at hc
    obtain ⟨c₀, -, rfl⟩ := hc
    exact ⟨replaceSlashChar_ne_slash _,
      replaceSlashChar_not_upper _ (goLowerChar_not_upper c₀)⟩
  refine ⟨?_, fun c hc => (hmem c hc).1, fun c hc => (hmem c hc).2⟩
  show String.mk (((KeywordPath kw).data.map goLowerChar).map replaceSlashChar)
      = KeywordPath kw
  have hfix : ∀ l : List Char, (∀ c ∈ l, c ≠ '/' ∧ ¬(65 ≤ c.toNat ∧ c.toNat ≤ 90)) →
      (l.map goLowerChar).map replaceSlashChar = l := by
    intro l
    induction l with
    | nil => intro _; rfl
    | cons x xs ih =>
        intro hl
        obtain ⟨hx, hxs⟩ := List.forall_mem_cons.mp hl
        simp only [List.map_cons, List.map_map]
        rw [goLowerChar_fixed_of_not_upper x hx.2, replaceSlashChar_fixed_of_ne_slash x hx.1]
        have := ih hxs
        rw [List.map_map] at this
        rw [this]
  have hres := hfix (KeywordPath kw).data hmem
  rw [hres]

theorem keywordPath_idempotent_sanitising_witness :
    KeywordPath "Spinal/Cord Q10" = "spinal_cord q10" ∧
    ('s' ∈ (KeywordPath "Spinal/Cord Q10").data ∧ 's' ≠ '/') := by
  refine ⟨by decide, by decide, ?_⟩
  exact (keywordPath_idempotent_sanitising "Spinal/Cord Q10").2.1 's' (by decide)

/-! ## Theorems: `CloneRepo` -/

/-- Claim C8: `CloneRepo` runs the clone in the destination directory
(whenever the clone stage is reached), and on every exit path — success,
clone-stage error, or annex-content error — the working directory is
restored to its value before the call. -/
theorem cloneRepo_restores_cwd (URI destdir : String) (env : CloneEnv) (cwd : String) :
    (CloneRepo URI destdir env cwd).cwdAfter = cwd ∧
    (env.getwdFails = false → env.chdirDestFails = false →
      (CloneRepo URI destdir env cwd).cloneRanIn = some destdir) := by
  unfold CloneRepo osChdir
  rcases env with ⟨gw, cd, ce, ge⟩
  cases gw <;> cases cd <;> cases ce <;> cases ge <;> simp

theorem cloneRepo_restores_cwd_witness :
    (CloneRepo "org/repo" "/data/tmp/xyz" ⟨false, false, none, none⟩ "/srv").cwdAfter = "/srv" ∧
    (CloneRepo "org/repo" "/data/tmp/xyz" ⟨false, false, none, none⟩ "/srv").cloneRanIn
      = some "/data/tmp/xyz" := by
  have h := cloneRepo_restores_cwd "org/repo" "/data/tmp/xyz" ⟨false, false, none, none⟩ "/srv"
  exact ⟨h.1, h.2 rfl rfl⟩

/-! ## Theorems: `Reference.GetURL` -/

theorem splitFirst_none_iff (sep : Char) :
    ∀ l : List Char, splitFirst sep l = none ↔ sep ∉ l
  | [] => by simp [splitFirst]
  | c :: cs => by
      simp only [splitFirst, List.mem_cons]
      split_ifs with hc
      · subst hc
        simp
      · cases hsp : splitFirst sep cs with
        | some p =>
            have : sep ∈ cs := by
              by_contra hmem
              rw [← splitFirst_none_iff sep cs] at hmem
              rw [hmem] at hsp
              cases hsp
            rcases p with ⟨l, r⟩
            simp only []
            constructor
            · intro h
              cases h
            · intro h
              exact absurd (Or.inr this) h
        | none =>
            rw [splitFirst_none_iff sep cs] at hsp
            simp only []
            constructor
            · intro _
              intro h
              rcases h with h | h
              · exact hc h.symm
              · exact hsp h
            · intro _
              trivial

/-- Claim C10: if the reference ID contains a colon, both segment accesses
are in bounds and `GetURL` yields the known-source URL joined with the ID
segment (doi / arxiv / pmid, case-insensitively) or the empty string for
an unknown source; if the ID contains no colon, the `idparts[1]` access
is out of bounds — the panic branch is reached. -/
theorem getURL_colon_bounds (ref : Legacy.Reference) :
    (∀ l r, splitFirst ':' ref.ID.data = some (l, r) →
      GetURL ref = some (refSourceURL (String.mk l) (String.mk r))) ∧
    ((':' ∉ ref.ID.data) → GetURL ref = none) ∧
    ((':' ∈ ref.ID.data) → ∃ u, GetURL ref = some u) := by
  refine ⟨fun l r hsp => ?_, fun hnc => ?_, fun hc => ?_⟩
  · unfold GetURL goSplitN2
    rw [hsp]
    rfl
  · unfold GetURL goSplitN2
    rw [(splitFirst_none_iff ':' ref.ID.data).mpr hnc]
    rfl
  · have hsp : splitFirst ':' ref.ID.data ≠ none := by
      rw [Ne, splitFirst_none_iff]
      simpa using hc
    cases h : splitFirst ':' ref.ID.data with
    | none => exact absurd h hsp
    | some p =>
        rcases p with ⟨l, r⟩
        refine ⟨refSourceURL (String.mk l) (String.mk r), ?_⟩
        unfold GetURL goSplitN2
        rw [h]
        rfl

theorem getURL_colon_bounds_witness :
    GetURL ⟨"journalarticle", "", "DOI:10.12751/x"⟩ = some "https://doi.org/10.12751/x" ∧
    GetURL ⟨"journalarticle", "", "gin123"⟩ = none := by
  constructor
  · have h := (getURL_colon_bounds ⟨"journalarticle", "", "DOI:10.12751/x"⟩).1
      "DOI".data "10.12751/x".data (by decide)
    rw [h]
    decide
  · exact (getURL_colon_bounds ⟨"journalarticle", "", "gin123"⟩).2.1 (by decide)

/-! ## Theorems: dispatcher -/

/-- Claim C2 counterexample: starting with jobs `1` then `2` enqueued (in
that order) and two idle workers, an execution of the dispatcher is
reachable in which job `2` is handed to a worker before job `1` — the
assignment order `[2, 1]` does not preserve the enqueue order `[1, 2]`,
so assignment is not FIFO. -/
theorem dispatch_fifo_counterexample :
    ¬(∀ s, Relation.ReflTransGen DispStep ⟨[1, 2], [], 2, []⟩ s →
        List.Sublist s.assigned [1, 2]) := by
  intro hfifo
  have s1 : DispStep ⟨[1, 2], [], 2, []⟩ ⟨[2], [1], 2, []⟩ := by
    have h := DispStep.recv 1 [2] [] 2 []
    simpa using h
  have s2 : DispStep ⟨[2], [1], 2, []⟩ ⟨[], [1, 2], 2, []⟩ := by
    have h := DispStep.recv 2 [] [1] 2 []
    simpa using h
  have s3 : DispStep ⟨[], [1, 2], 2, []⟩ ⟨[], [1], 1, [2]⟩ := by
    have h := DispStep.handoff [] [1] [] 2 1 []
    simpa using h
  have s4 : DispStep ⟨[], [1], 1, [2]⟩ ⟨[], [], 0, [2, 1]⟩ := by
    have h := DispStep.handoff [] [] [] 1 0 [2]
    simpa using h
  have htrace : Relation.ReflTransGen DispStep ⟨[1, 2], [], 2, []⟩ ⟨[], [], 0, [2, 1]⟩ :=
    Relation.ReflTransGen.head s1 (Relation.ReflTransGen.head s2
      (Relation.ReflTransGen.head s3 (Relation.ReflTransGen.single s4)))
  have hsub := hfifo _ htrace
  have : ¬ List.Sublist [2, 1] [1, 2] := by decide
  exact this hsub

/-- Claim C2 (amended): the dispatch loop removes jobs from the shared
job queue in FIFO order — in every reachable state the remaining queue is
a suffix of the initial queue — but each dequeued job is handed to an
idle worker by a separately spawned goroutine, so the order in which
dequeued jobs are assigned to workers is not guaranteed (and no priority
scheme exists). -/
theorem dispatch_dequeue_fifo (init s : DispState)
    (h : Relation.ReflTransGen DispStep init s) :
    ∃ t, init.jobQueue = t ++ s.jobQueue := by
  induction h with
  | refl => exact ⟨[], rfl⟩
  | tail hab hbc ih =>
      obtain ⟨t, ht⟩ := ih
      cases hbc with
      | recv j q p w a =>
          exact ⟨t ++ [j], by simp [ht]⟩
      | handoff q p₁ p₂ j w a =>
          exact ⟨t, ht⟩
      | finish q p w a =>
          exact ⟨t, ht⟩

theorem dispatch_dequeue_fifo_witness :
    ∃ t, ([5, 7] : List Nat) = t ++ [7] := by
  have hstep : DispStep ⟨[5, 7], [], 1, []⟩ ⟨[7], [5], 1, []⟩ := by
    have h := DispStep.recv 5 [7] [] 1 []
    simpa using h
  exact dispatch_dequeue_fifo ⟨[5, 7], [], 1, []⟩ ⟨[7], [5], 1, []⟩
    (Relation.ReflTransGen.single hstep)

end GinDoi
